/-
Verification development for the rqlite client library (rs_rqlite_client).

The Rust sources are embedded shallowly: strings are lists of characters,
u64 arithmetic is Nat with explicit reduction modulo 2^64 where overflow
matters, panics are modelled by Option/Except, and the two I/O calls of the
migration engine (fetching the persisted version, executing the final
transaction) are cut at their boundary: the fetched version enters the pure
core as a parameter and the built query is returned for execution.
-/
import Mathlib

/-! ## Character and line utilities (Rust `str` / `char` semantics) -/

/-- Rust `char::is_whitespace`: the Unicode `White_Space` code points. -/
def isRustWS (c : Char) : Bool :=
  let n := c.toNat
  (decide (9 ≤ n) && decide (n ≤ 13)) || n == 32 || n == 133 || n == 160 || n == 5760 ||
    (decide (8192 ≤ n) && decide (n ≤ 8202)) || n == 8232 || n == 8233 ||
    n == 8239 || n == 8287 || n == 12288

/-- Rust `str::trim_start`. -/
def trimStartChars (l : List Char) : List Char := l.dropWhile isRustWS

/-- Rust `str::trim_end`. -/
def trimEndChars (l : List Char) : List Char := (l.reverse.dropWhile isRustWS).reverse

/-- Rust `str::trim`. -/
def trimChars (l : List Char) : List Char := trimEndChars (trimStartChars l)

/-- Split keeping the terminating newline with each segment
(Rust `str::split_inclusive` at the newline character, the basis of `str::lines`). -/
def splitInclNL : List Char → List (List Char)
  | [] => []
  | c :: rest =>
    if c = '\n' then [c] :: splitInclNL rest
    else
      match splitInclNL rest with
      | [] => [[c]]
      | l :: ls => (c :: l) :: ls

/-- Drop a trailing line feed, and a carriage return directly before it
(the per-line trimming performed by Rust `str::lines`). -/
def chopLineEnd (l : List Char) : List Char :=
  if l.getLast? = some '\n' then
    let l' := l.dropLast
    if l'.getLast? = some '\r' then l'.dropLast else l'
  else l

/-- Rust `str::lines`. -/
def rustLines (s : List Char) : List (List Char) := (splitInclNL s).map chopLineEnd

/-- Rust `str::strip_suffix` specialised to a single trailing backslash. -/
def stripSuffixBackslash (l : List Char) : Option (List Char) :=
  if l.getLast? = some '\\' then some l.dropLast else none

/-- First characters that make the migration code drop a line:
`['#', ';', '/', '-']` in `Sql::parse_str` and in the migrate/rollback loops. -/
def isCommentStart (c : Char) : Bool := c == '#' || c == ';' || c == '/' || c == '-'

/-! ## `Sql` normalization (src/migration/sql.rs) -/

/-- One iteration of the `Sql::parse_str` loop: whether the line is a
continuation (trailing backslash) and the text that survives
(`trim_start` after stripping the backslash, full `trim` otherwise). -/
def lineContent (line : List Char) : Bool × List Char :=
  match stripSuffixBackslash line with
  | some l => (true, trimStartChars l)
  | none => (false, trimChars line)

/-- The body of `Sql::parse_str`: walk the lines, drop empty and
comment-starting content, append surviving content, and append a newline
only after non-continuation lines. -/
def parseLines : List (List Char) → List Char
  | [] => []
  | line :: rest =>
    let m := lineContent line
    match m.2 with
    | [] => parseLines rest
    | c :: _ =>
      if isCommentStart c then parseLines rest
      else m.2 ++ (if m.1 then [] else ['\n']) ++ parseLines rest

/-- `Sql::parse_str`: filter the lines of `sql`, then `trim_end` the result. -/
def parseStr (sql : List Char) : List Char := trimEndChars (parseLines (rustLines sql))

/-- `Sql` value: either a borrowed reference (`sql_str`) or an owned
normalized string (`sql_string`); exactly one is set by the constructors. -/
structure Sql where
  sqlStr : Option (List Char)
  sqlString : Option (List Char)
deriving Repr, DecidableEq

/-- `Sql::as_str`: prefer the owned normalized string; otherwise the
borrowed one (its absence is unreachable through the public constructors,
where the Rust code unwraps). -/
def Sql.asStr (s : Sql) : List Char :=
  match s.sqlString with
  | some sql => sql
  | none => s.sqlStr.getD []

/-- `impl From<&str> for Sql`: normalize; keep the borrowed original when
normalization was the identity, else store the owned normalized copy. -/
def sqlFromStr (value : List Char) : Sql :=
  let sqlString := parseStr value
  if value = sqlString then ⟨some value, none⟩ else ⟨none, some sqlString⟩

example : parseStr "   CREATE TABLE t(x INTEGER);   \n".data = "CREATE TABLE t(x INTEGER);".data := by decide

example :
    parseStr "CREATE TABLE account(\\\n  account_id INTEGER PRIMARY KEY, \\\n  -- comment line \\\n  confirm_at NUMERIC \\\n);\n".data
      = "CREATE TABLE account(account_id INTEGER PRIMARY KEY, confirm_at NUMERIC );".data := by
  decide

/-! ## `Value` (re-exported `serde_json::Value`) -/

/-- `serde_json::Value`; numbers carry the internal `serde_json` split into
an unsigned, a negative-signed and a floating arm (the float payload is not
needed by any claim and is left abstract). -/
inductive Value where
  | vNull
  | vBool (b : Bool)
  | numPos (n : Nat)
  | numNeg (i : Int)
  | numFloat
  | str (s : List Char)
  | arr (elems : List Value)
  | obj (fields : List (List Char × Value))
deriving Repr

/-- `serde_json::Value::as_u64`: only the unsigned integer arm qualifies. -/
def Value.asU64 : Value → Option Nat
  | .numPos n => some n
  | _ => none

/-- `serde_json::Value::is_string`. -/
def Value.isString : Value → Bool
  | .str _ => true
  | _ => false

/-! ## Query state machine (src/query.rs) -/

/-- `ConsistencyLevel` (src/query/consistency_level.rs); `Nolevel` is the
`Default`. `None` is renamed `cnone` to avoid clashing with `Option.none`. -/
inductive ConsistencyLevel where
  | auto
  | linearizable
  | nolevel
  | cnone
  | strong
  | weak
deriving Repr, DecidableEq

/-- `Endpoint` (src/query/endpoint.rs); `Query` is the `Default`.  The
`Monitor` variant exists only under the `monitor` feature and is not needed
by any claim. -/
inductive Endpoint where
  | execute
  | query
  | request
deriving Repr, DecidableEq

/-- The `Query` struct (src/query.rs).  The phantom state parameter has no
runtime content and is dropped; the `connection` back-reference is not
part of any claim and is dropped; `url_cache` models the contents of the
`RefCell` cache slot (the cached serialized URL is not itself computed
here, only whether the flags mark it stale via `is_url_modified`). -/
structure QueryT where
  consistencyLevel : Option ConsistencyLevel
  endpoint : Endpoint
  freshness : Option Nat
  isAssociative : Bool
  isNoleader : Bool
  isNonvoters : Bool
  isPretty : Bool
  isQueue : Bool
  isRedirect : Bool
  isTiming : Bool
  isTransaction : Bool
  isUrlModified : Bool
  isWait : Bool
  sql : List Value
  timeout : Option Nat
  timeoutRequest : Option Nat
  urlCache : Option (List Char)
deriving Repr

/-- `Query::url_modified`: mark any modification which changes the url. -/
def urlModified (q : QueryT) : QueryT := { q with isUrlModified := true }

/-- `Query::<NoLevel>::new`: fresh query on the read endpoint, redirect
following enabled, consistency level `Some(Nolevel)`. -/
def queryNew : QueryT where
  consistencyLevel := some .nolevel
  endpoint := .query
  freshness := none
  isAssociative := false
  isNoleader := false
  isNonvoters := false
  isPretty := false
  isQueue := false
  isRedirect := true
  isTiming := false
  isTransaction := false
  isUrlModified := false
  isWait := false
  sql := []
  timeout := none
  timeoutRequest := none
  urlCache := none

/-- The private `transition` function: copy every field, replace the
consistency level by `Some(consistency_level)` and the freshness by the
`freshness` argument (the phantom state changes at the type level only). -/
def transition (src : QueryT) (consistencyLevel : ConsistencyLevel)
    (freshness : Option Nat) : QueryT :=
  { src with consistencyLevel := some consistencyLevel, freshness := freshness }

/-- `Query::set_endpoint`. -/
def setEndpoint (q : QueryT) (endpoint : Endpoint) : QueryT :=
  if q.endpoint = endpoint then q else urlModified { q with endpoint := endpoint }

/-- `Query::<NoLevel>::switch_multi`: transition keeping level and freshness
(the Rust code unwraps the level, which `Query::new` always sets). -/
def switchMulti (q : QueryT) : QueryT :=
  transition q (q.consistencyLevel.getD .nolevel) q.freshness

/-- `Connection::query`. -/
def connectionQuery : QueryT := queryNew

/-- `Connection::execute`. -/
def connectionExecute : QueryT := switchMulti (setEndpoint queryNew .execute)

/-- `Query::set_pretty`. -/
def setPretty (q : QueryT) : QueryT :=
  if q.isPretty then q else urlModified { q with isPretty := true }

/-- `Query::set_timing`. -/
def setTiming (q : QueryT) : QueryT :=
  if q.isTiming then q else urlModified { q with isTiming := true }

/-- `Query::set_associative`. -/
def setAssociative (q : QueryT) : QueryT :=
  if q.isAssociative then q else urlModified { q with isAssociative := true }

/-- `Query::disable_redirect`. -/
def disableRedirect (q : QueryT) : QueryT :=
  if q.isRedirect then urlModified { q with isRedirect := false } else q

/-- `Query::enable_transaction_helper`: a no-op on the read endpoint,
otherwise set the flag (unconditionally) and mark the url modified. -/
def enableTransactionHelper (q : QueryT) : QueryT :=
  if q.endpoint = .query then q else urlModified { q with isTransaction := true }

/-- `Query::<NoLevelMulti>::set_queue`: set the flag, nothing else. -/
def setQueue (q : QueryT) : QueryT := { q with isQueue := true }

/-- `Query::<NoLevelMulti>::set_wait`: set the flag only when queueing. -/
def setWait (q : QueryT) : QueryT :=
  if q.isQueue then { q with isWait := true } else q

/-- `Query::set_freshness_helper`. -/
def setFreshnessHelper (q : QueryT) (freshness : Nat) : QueryT :=
  if q.freshness = some freshness then q
  else urlModified { q with freshness := some freshness }

/-- `Query::set_sql_helper`: clear the accumulated statements; on the read
endpoint store exactly the one supplied statement and mark the url
modified; on any other endpoint the Rust code reaches a panic
(`"set_sql only Query"`), modelled as `none`. -/
def setSqlHelper (q : QueryT) (sql : Value) : Option QueryT :=
  if q.endpoint = .query then some (urlModified { q with sql := [sql] }) else none

/-- `Query::set_sql_str_helper`. -/
def setSqlStrHelper (q : QueryT) (sql : List Char) : Option QueryT :=
  setSqlHelper q (.str sql)

/-- `Query::push_sql_helper`: mark the url modified only on the read
endpoint while at most one statement is stored; promote a bare string to a
one-element array; append. -/
def pushSqlHelper (q : QueryT) (sql : Value) : QueryT :=
  let qm := if q.endpoint = .query ∧ q.sql.length ≤ 1 then urlModified q else q
  let sql' := if sql.isString then Value.arr [sql] else sql
  { qm with sql := qm.sql ++ [sql'] }

/-- `push_sql` on a single-statement state (generated by `gen_query!`):
push, then transition to the multi state carrying level and freshness over
(the Rust code unwraps the level, set by every constructor). -/
def pushSqlSingle (q : QueryT) (sql : Value) : QueryT :=
  let qm := pushSqlHelper q sql
  transition qm (qm.consistencyLevel.getD .nolevel) qm.freshness

/-- `push_sql_str` on a single-statement state. -/
def pushSqlStrSingle (q : QueryT) (sql : List Char) : QueryT :=
  pushSqlSingle q (.str sql)

/-- `push_sql_str` on a multi-statement state. -/
def pushSqlStrMulti (q : QueryT) (sql : List Char) : QueryT :=
  pushSqlHelper q (.str sql)

/-- `set_none` / `set_weak` / `set_strong` on any level state: all expand
to `transition(self, level, None)` (src/query.rs lines 865-1104). -/
def setLevel (q : QueryT) (level : ConsistencyLevel) : QueryT :=
  transition q level none

/-! ## SchemaVersion arithmetic (src/migration/schema_version.rs)

`SchemaVersion` wraps a `u64`; its numeric value is modelled as a `Nat`
reduced modulo 2^64 where an operation can leave the range. -/

/-- 2^64, the number of `u64` values. -/
def U64MOD : Nat := 18446744073709551616

/-- `SchemaVersion::checked_add_signed` (via `u64::checked_add_signed`):
`None` exactly when the signed addition leaves the `u64` range. -/
def svCheckedAddSigned (v : Nat) (rhs : Int) : Option Nat :=
  let r : Int := (v : Int) + rhs
  if 0 ≤ r ∧ r < (U64MOD : Int) then some r.toNat else none

/-- `SchemaVersion::checked_sub`: a negative argument is added through
`checked_add_signed`, otherwise `u64::checked_sub` returns `None` on
underflow. -/
def svCheckedSub (v : Nat) (value : Int) : Option Nat :=
  if value < 0 then svCheckedAddSigned v (-value)
  else if value.toNat ≤ v then some (v - value.toNat) else none

/-- `impl AddAssign<i32> for SchemaVersion`:
`self.0 += u64::try_from(rhs).expect(..)`.  A negative `rhs` makes the
conversion panic (`none`).  The addition itself is the plain `u64` `+=`:
under the default release profile an overflow wraps modulo 2^64 (with
overflow checks enabled it would panic instead of wrapping; in neither
build is it surfaced as an error value). -/
def svAddAssignI32 (v : Nat) (rhs : Int) : Option Nat :=
  if rhs < 0 then none else some ((v + rhs.toNat) % U64MOD)

/-- The `version += 1` step of the migrate loop (`AddAssign<i32>` at
`rhs = 1`, which never panics on the conversion). -/
def svAddOne (v : Nat) : Nat := (v + 1) % U64MOD

/-- `version.checked_sub(1).unwrap_or_default()`: the clamped decrement
used by `migrate_to` and `rollback_to`. -/
def svDecClamp (v : Nat) : Nat := (svCheckedSub v 1).getD 0

/-! ## Response mappings (src/response/mapping.rs) -/

/-- Supported column `DataType`s (src/data_type.rs). -/
inductive DataType where
  | blob
  | boolean
  | integer
  | numeric
  | real
  | text
deriving Repr, DecidableEq

/-- `mapping::Standard` (src/response/mapping/standard.rs). -/
structure StandardT where
  columns : List (List Char)
  time : Option Float
  types : List DataType
  values : Option (List (List Value))
deriving Repr

/-- `Standard::value`: entry at `row_index` / `column_index` of the
optional row-major `values`. -/
def StandardT.value (s : StandardT) (rowIndex columnIndex : Nat) : Option Value :=
  match s.values with
  | some values => (values.get? rowIndex).bind (fun row => row.get? columnIndex)
  | none => none

/-- `mapping::Associative` (src/response/mapping/associative.rs); the two
hash maps are carried as association lists. -/
structure AssociativeT where
  rows : List (List (List Char × Value))
  time : Option Float
  types : List (List Char × DataType)
deriving Repr

/-- `mapping::Error`.  Its defining file is not under src/; the struct is
reconstructed from its uses inside src/ (the documentation example in
response/mapping.rs constructs `Error { error: String::new() }` and
src/migration.rs reads `err.error` as a string). -/
structure ErrorT where
  error : List Char
deriving Repr, DecidableEq

/-- `mapping::Execute`.  Its defining file is not under src/; the struct is
reconstructed from its constructions inside src/ (response/mapping/macros.rs
builds it from `last_insert_id` and `rows_affected`). -/
structure ExecuteT where
  lastInsertId : Nat
  rowsAffected : Nat
  time : Option Float
deriving Repr

/-- `mapping::Empty` (src/response/mapping/empty.rs). -/
structure EmptyT where
  time : Option Float
deriving Repr

/-- The `Mapping` enum. -/
inductive Mapping where
  | associative (a : AssociativeT)
  | error (e : ErrorT)
  | execute (e : ExecuteT)
  | standard (s : StandardT)
  | empty (e : EmptyT)
deriving Repr

/-! ## Migration engine (src/migration.rs) -/

/-- A single migration `M(upgrade, Option<downgrade>)`. -/
structure MUnit where
  upgrade : Sql
  downgrade : Option Sql
deriving Repr, DecidableEq

/-- `Migration`: the ordered migration list plus whether a request builder
is bound (`request_builder.is_some()`); the builder itself is the execution
collaborator and carries no data the engine reads. -/
structure Migration where
  migrations : List MUnit
  hasRequestBuilder : Bool
deriving Repr, DecidableEq

/-- The structured content of the `QueryFail(String)` messages built by the
engine; the Rust code formats these pieces into one string. -/
inductive QueryFailMsg where
  | errorAt (error : List Char) (index : Nat)
  | resultNotHandled
  | noSchemaVersion
deriving Repr, DecidableEq

/-- The structured content of the `DataMalformat(String)` messages
(`format!("no migration {v}")` / `format!("no rollback {v}")`), keeping the
version the message names. -/
inductive MalformatMsg where
  | noMigration (v : Nat)
  | noRollback (v : Nat)
deriving Repr, DecidableEq

/-- `MigrationError` (src/migration/error.rs); the message strings the code
formats are carried structurally. -/
inductive MigrationErrorT where
  | dataMalformat (msg : MalformatMsg)
  | internal (msg : List Char)
  | noData
  | noRequestBuilder
  | queryFail (msg : QueryFailMsg)
  | transactionFail (status : Nat) (msg : List Char)
deriving Repr, DecidableEq

/-- The result-scanning loop of `Migration::pragma_user_version`, with the
running `enumerate` index: an `Error` mapping fails naming the statement
index, a `Standard` mapping yields `value(0,0).and_then(Value::as_u64)`
and only breaks the loop when that is `Some`, every other mapping kind
fails with `"result not handled"`. -/
def pragmaScan : Nat → List Mapping → Except MigrationErrorT Nat
  | _, [] => .error (.queryFail .noSchemaVersion)
  | idx, r :: rest =>
    match r with
    | .error e => .error (.queryFail (.errorAt e.error idx))
    | .standard s =>
      match (s.value 0 0).bind Value.asU64 with
      | some n => .ok n
      | none => pragmaScan (idx + 1) rest
    | _ => .error (.queryFail .resultNotHandled)

/-- `Migration::pragma_user_version`, cut at the executor boundary: given
the result mappings of the `Response::Query` the request builder returned
for `connection.query().push_sql_str("PRAGMA user_version")`, produce the
persisted schema version or the error the scan raises.  (A transport error
or a non-query response fail earlier in the Rust code.) -/
def pragmaUserVersion (results : List Mapping) : Except MigrationErrorT Nat :=
  pragmaScan 0 results

/-- The inner statement-pushing loop shared by `migrate_to` and
`rollback_to`: every line of the script, trimmed, is pushed as one SQL
statement unless it is empty or starts with a comment character. -/
def pushScriptLines (q : QueryT) (script : Sql) : QueryT :=
  (rustLines script.asStr).foldl
    (fun q line =>
      let line := trimChars line
      match line with
      | [] => q
      | c :: _ => if isCommentStart c then q else pushSqlHelper q (.str line))
    q

/-- The walk of `Migration::migrate_to` over the migration list: break once
a supplied target version is exceeded by the running counter, append the
upgrade lines of units not yet persisted (`db_version <= version`), and
increment the counter after every unit. -/
def migrateLoop (dbVersion : Nat) (toVersion : Option Nat) :
    List MUnit → Nat → QueryT → Nat × QueryT
  | [], version, q => (version, q)
  | u :: rest, version, q =>
    if (toVersion.filter (fun v => decide (v < version))).isSome then (version, q)
    else
      let q' := if dbVersion ≤ version then pushScriptLines q u.upgrade else q
      migrateLoop dbVersion toVersion rest (svAddOne version) q'

/-- The final statement text `format!("PRAGMA user_version={version}")`. -/
def pragmaSetStmt (version : Nat) : List Char :=
  "PRAGMA user_version=".data ++ (Nat.repr version).data

/-- The pure part of `Migration::run_n_set_pragma_user_version`: append the
final version write to the accumulated transaction.  Executing the query
via the request builder and scanning the reply is `checkResultsForError`
on the executor's result list. -/
def runNSetPragmaUserVersion (q : QueryT) (version : Nat) : QueryT :=
  pushSqlStrMulti q (pragmaSetStmt version)

/-- The error scan of `run_n_set_pragma_user_version` on the executed
response: the first `Error` mapping aborts naming its statement index. -/
def checkResultsForError : Nat → List Mapping → Except MigrationErrorT Unit
  | _, [] => .ok ()
  | idx, r :: rest =>
    match r with
    | .error e => .error (.queryFail (.errorAt e.error idx))
    | _ => checkResultsForError (idx + 1) rest

/-- `Migration::migrate_to`, cut at the two I/O boundaries: `dbVersion` is
the version `pragma_user_version` fetched, and on success the returned
query (write endpoint, transaction enabled, upgrade lines, final version
write) is handed to the request builder together with the version that is
also the call's return value.  An error return means the write transaction
is never built further nor executed. -/
def migrateTo (m : Migration) (dbVersion : Nat) (toVersion : Option Nat) :
    Except MigrationErrorT (QueryT × Nat) :=
  if m.migrations = [] then .error .noData
  else if ¬ m.hasRequestBuilder then .error .noRequestBuilder
  else
    let q := enableTransactionHelper connectionExecute
    let r := migrateLoop dbVersion toVersion m.migrations 0 q
    match toVersion with
    | some tv =>
      let version := svDecClamp r.1
      if version ≠ tv then .error (.dataMalformat (.noMigration tv))
      else
        let version' := if version < dbVersion then dbVersion else version
        .ok (runNSetPragmaUserVersion r.2 version', version')
    | none => .ok (runNSetPragmaUserVersion r.2 r.1, r.1)

/-- `Migration::migrate`: `migrate_to` with no target version. -/
def migrate (m : Migration) (dbVersion : Nat) : Except MigrationErrorT (QueryT × Nat) :=
  migrateTo m dbVersion none

/-- The walk of `Migration::rollback_to` over the reversed migration list:
a unit with a downgrade script decrements the (clamped) counter and pushes
the script's lines only while the counter is strictly above the target; a
unit without one decrements the counter unconditionally. -/
def rollbackLoop (toVersion : Nat) :
    List MUnit → Nat → QueryT → Nat × QueryT
  | [], version, q => (version, q)
  | u :: rest, version, q =>
    match u.downgrade with
    | some dg =>
      if toVersion < version then
        rollbackLoop toVersion rest (svDecClamp version) (pushScriptLines q dg)
      else rollbackLoop toVersion rest version q
    | none => rollbackLoop toVersion rest (svDecClamp version) q

/-- `Migration::rollback_to`, cut at the same two I/O boundaries as
`migrateTo`. -/
def rollbackTo (m : Migration) (dbVersion : Nat) (toVersion : Nat) :
    Except MigrationErrorT (QueryT × Nat) :=
  if m.migrations = [] then .error .noData
  else if ¬ m.hasRequestBuilder then .error .noRequestBuilder
  else if dbVersion ≤ toVersion then .error (.dataMalformat (.noRollback toVersion))
  else
    let q := enableTransactionHelper connectionExecute
    let r := rollbackLoop toVersion m.migrations.reverse dbVersion q
    .ok (runNSetPragmaUserVersion r.2 r.1, r.1)

/-! ## Shared derived definitions used by the claim statements -/

/-- The query every engine write starts from:
`connection.execute().enable_transaction()`. -/
def execTransBase : QueryT := enableTransactionHelper connectionExecute

/-- The statement units the engine pushes for one script: each line,
trimmed, that is nonempty and does not start with a comment character,
promoted (as `push_sql` does with a bare string) to a one-element array. -/
def meaningfulStmts (script : Sql) : List Value :=
  (rustLines script.asStr).filterMap
    (fun line =>
      let t := trimChars line
      match t with
      | [] => none
      | c :: _ => if isCommentStart c then none else some (Value.arr [Value.str t]))

/-- Spec-side description of the forward walk's statement list: the
meaningful upgrade lines of every unit, in list order. -/
def upgradeStmts (ms : List MUnit) : List Value :=
  match ms with
  | [] => []
  | u :: rest => meaningfulStmts u.upgrade ++ upgradeStmts rest

/-- The final version-write statement as a pushed value. -/
def pragmaStmtVal (version : Nat) : Value := .arr [.str (pragmaSetStmt version)]

/-! ## Basic lemmas about the query primitives -/

theorem pushSqlHelper_not_query (q : QueryT) (h : q.endpoint ≠ .query) (v : Value) :
    pushSqlHelper q v = { q with sql := q.sql ++ [if v.isString then Value.arr [v] else v] } := by
  have hcond : ¬(q.endpoint = .query ∧ q.sql.length ≤ 1) := fun hq => h hq.1
  simp [pushSqlHelper, hcond]

theorem pushScriptLines_not_query (q : QueryT) (h : q.endpoint ≠ .query) (script : Sql) :
    pushScriptLines q script = { q with sql := q.sql ++ meaningfulStmts script } := by
  unfold pushScriptLines meaningfulStmts
  generalize rustLines script.asStr = lines
  induction lines generalizing q with
  | nil => simp
  | cons line rest ih =>
    simp only [List.foldl_cons, List.filterMap_cons]
    rcases htrim : trimChars line with _ | ⟨c, cs⟩
    · simpa [htrim] using ih q h
    · by_cases hc : isCommentStart c
      · simpa [htrim, hc] using ih q h
      · have hpush := pushSqlHelper_not_query q h (.str (c :: cs))
        simp only [Value.isString, if_true] at hpush
        simp only [htrim, hc, Bool.false_eq_true, if_false, hpush]
        rw [ih]
        · simp
        · exact h

theorem execTransBase_fields :
    execTransBase.endpoint = .execute ∧ execTransBase.isTransaction = true ∧
      execTransBase.sql = [] := by
  constructor
  · rfl
  constructor
  · rfl
  · rfl

/-- `version.checked_sub(1).unwrap_or_default()` is exactly the truncated
(clamped) predecessor. -/
theorem svDecClamp_eq (v : Nat) : svDecClamp v = v - 1 := by
  cases v with
  | zero => decide
  | succ n =>
    simp only [svDecClamp, svCheckedSub, svCheckedAddSigned]
    norm_num

/-! ## Claim C6 -/

/-- C6 counterexample: at `u64::MAX` the per-unit increment
(`AddAssign<i32>` at `rhs = 1`, the operation `migrate_to` runs at line
239) wraps silently to `0` and still yields a value — it is not a hard
failure. -/
theorem c6_overflow_wraps_cex :
    svAddAssignI32 (U64MOD - 1) 1 = some 0 ∧ (svAddAssignI32 (U64MOD - 1) 1).isSome = true := by
  constructor
  · simp only [svAddAssignI32, U64MOD]
    norm_num
  · simp only [svAddAssignI32]
    norm_num

/-- C6 (amended): the rollback counter decrement clamps at zero (never
wraps, never panics), as claimed; but the per-unit increment of the
forward walk is an unchecked `u64` addition which at `u64::MAX` wraps to
`0` modulo 2^64 under the default release profile (with overflow checks
compiled in it panics) instead of being surfaced as a failure;
`SchemaVersion::checked_add_signed` would report the overflow as `None`
but is not used by the walk. -/
theorem c6_numeric_semantics :
    (∀ v : Nat, svDecClamp (v + 1) = v) ∧ svDecClamp 0 = 0 ∧
      svAddOne (U64MOD - 1) = 0 ∧
      svAddAssignI32 (U64MOD - 1) 1 = some (svAddOne (U64MOD - 1)) ∧
      svCheckedAddSigned (U64MOD - 1) 1 = none := by
  refine ⟨fun v => ?_, by decide, ?_, ?_, ?_⟩
  · simpa using svDecClamp_eq (v + 1)
  · simp only [svAddOne, U64MOD]
  · simp only [svAddAssignI32, svAddOne]
    norm_num
  · simp only [svCheckedAddSigned, U64MOD]
    norm_num

/-! ## Claim C8 -/

/-- A reachable `Query<LevelNone>` carrying a freshness value:
`connection.query().set_none().set_freshness(5)`. -/
def c8LevelNoneQuery : QueryT := setFreshnessHelper (setLevel connectionQuery .cnone) 5

/-- C8 counterexample: `set_strong` on a `LevelNone` query that carries a
freshness value passes `None` for freshness to `transition`, so the stored
freshness is dropped — the transition does lose data, refuting the claim
that all flag and option fields are preserved. -/
theorem c8_freshness_lost_cex :
    c8LevelNoneQuery.freshness = some 5 ∧
      (setLevel c8LevelNoneQuery .strong).freshness = none := by
  decide

/-- C8 (amended): every consistency-level transition (`set_none`,
`set_weak`, `set_strong`, from any level to any other) preserves the
accumulated SQL statement list and all flag and option fields except
freshness: the stored level becomes the target level and the freshness is
reset to `None` (any previously set freshness is lost); everything else is
unchanged. -/
theorem c8_transition_frame :
    ∀ (q : QueryT) (level : ConsistencyLevel),
      (setLevel q level).sql = q.sql ∧
      (setLevel q level).endpoint = q.endpoint ∧
      (setLevel q level).isAssociative = q.isAssociative ∧
      (setLevel q level).isNoleader = q.isNoleader ∧
      (setLevel q level).isNonvoters = q.isNonvoters ∧
      (setLevel q level).isPretty = q.isPretty ∧
      (setLevel q level).isQueue = q.isQueue ∧
      (setLevel q level).isRedirect = q.isRedirect ∧
      (setLevel q level).isTiming = q.isTiming ∧
      (setLevel q level).isTransaction = q.isTransaction ∧
      (setLevel q level).isUrlModified = q.isUrlModified ∧
      (setLevel q level).isWait = q.isWait ∧
      (setLevel q level).timeout = q.timeout ∧
      (setLevel q level).timeoutRequest = q.timeoutRequest ∧
      (setLevel q level).urlCache = q.urlCache ∧
      (setLevel q level).consistencyLevel = some level ∧
      (setLevel q level).freshness = none :=
  fun _ _ =>
    ⟨rfl, rfl, rfl, rfl, rfl, rfl, rfl, rfl, rfl, rfl, rfl, rfl, rfl, rfl, rfl, rfl, rfl⟩

/-! ## Claim C9 -/

/-- A reachable `Query<NoLevelMulti>` whose cached URL is not marked
stale: `connection.query().switch_multi()`. -/
def c9MultiQuery : QueryT := switchMulti connectionQuery

/-- C9 counterexample: `set_queue` flips the queue flag from false to true
but does not mark the cached serialized URL as stale, refuting the claim
that every boolean flag setter marks the URL stale when it flips. -/
theorem c9_queue_no_stale_cex :
    c9MultiQuery.isQueue = false ∧ (setQueue c9MultiQuery).isQueue = true ∧
      c9MultiQuery.isUrlModified = false ∧
      (setQueue c9MultiQuery).isUrlModified = false := by
  decide

/-- C9 (amended): `set_pretty`, `set_timing`, `set_associative` and
`disable_redirect` follow the claimed pattern (no-op when the flag already
holds the requested value, otherwise flip and mark the cached URL stale);
`enable_transaction` is a no-op only on the read endpoint and otherwise
sets its flag and marks the URL unconditionally; `set_queue` sets its flag
without ever marking the URL stale; `set_wait` sets its flag only while
queueing and also never marks the URL stale. -/
theorem c9_flag_setters :
    ∀ q : QueryT,
      (q.isPretty = true → setPretty q = q) ∧
      (q.isPretty = false → setPretty q = urlModified { q with isPretty := true }) ∧
      (q.isTiming = true → setTiming q = q) ∧
      (q.isTiming = false → setTiming q = urlModified { q with isTiming := true }) ∧
      (q.isAssociative = true → setAssociative q = q) ∧
      (q.isAssociative = false →
        setAssociative q = urlModified { q with isAssociative := true }) ∧
      (q.isRedirect = false → disableRedirect q = q) ∧
      (q.isRedirect = true → disableRedirect q = urlModified { q with isRedirect := false }) ∧
      (q.endpoint = .query → enableTransactionHelper q = q) ∧
      (q.endpoint ≠ .query →
        enableTransactionHelper q = urlModified { q with isTransaction := true }) ∧
      setQueue q = { q with isQueue := true } ∧
      (setQueue q).isUrlModified = q.isUrlModified ∧
      (q.isQueue = true → setWait q = { q with isWait := true }) ∧
      (q.isQueue = false → setWait q = q) ∧
      (setWait q).isUrlModified = q.isUrlModified := by
  intro q
  refine ⟨fun h => by simp [setPretty, h], fun h => by simp [setPretty, h],
    fun h => by simp [setTiming, h], fun h => by simp [setTiming, h],
    fun h => by simp [setAssociative, h], fun h => by simp [setAssociative, h],
    fun h => by simp [disableRedirect, h], fun h => by simp [disableRedirect, h],
    fun h => by simp [enableTransactionHelper, h], fun h => by simp [enableTransactionHelper, h],
    rfl, rfl, fun h => by simp [setWait, h], fun h => by simp [setWait, h], ?_⟩
  by_cases h : q.isQueue <;> simp [setWait, h]

/-- C9 witness: toggling `set_pretty` twice leaves the query exactly as
after one toggle (the spec's idempotent toggle-on scenario), by the
amended theorem applied at a concrete query. -/
theorem c9_flag_setters_witness :
    setPretty (setPretty connectionQuery) = setPretty connectionQuery :=
  (c9_flag_setters (setPretty connectionQuery)).1 (by decide)

/-! ## Claim C10 -/

/-- C10: `set_sql` (every variant funnels into `set_sql_helper`) panics
exactly when the endpoint is not the read-only query endpoint; on the
query endpoint it never panics and replaces the accumulated statements
with exactly the one supplied value (marking the URL stale). -/
theorem c10_set_sql_behaviour :
    ∀ (q : QueryT) (v : Value) (s : List Char),
      (setSqlHelper q v = none ↔ q.endpoint ≠ .query) ∧
      (q.endpoint = .query → setSqlHelper q v = some (urlModified { q with sql := [v] })) ∧
      setSqlStrHelper q s = setSqlHelper q (.str s) := by
  intro q v s
  refine ⟨⟨fun hnone hq => ?_, fun hq => ?_⟩, fun hq => ?_, rfl⟩
  · simp [setSqlHelper, hq] at hnone
  · simp [setSqlHelper, hq]
  · simp [setSqlHelper, hq]

/-- C10 witness: on the read endpoint `set_sql` succeeds and stores the
one supplied statement; derived by applying the theorem at a concrete
query and discharging its hypothesis. -/
theorem c10_set_sql_witness :
    setSqlHelper connectionQuery (.str "SELECT 1".data)
      = some (urlModified { connectionQuery with sql := [.str "SELECT 1".data] }) :=
  (c10_set_sql_behaviour connectionQuery (.str "SELECT 1".data) []).2.1 rfl

/-! ## Claim C3 -/

/-- Shorthand for the concrete example migrations below. -/
def mkSqlStr (s : String) : Sql := sqlFromStr s.data

/-- Two units: unit 0 has no downgrade script, unit 1 has one. -/
def c3Mig : Migration :=
  ⟨[⟨mkSqlStr "CREATE A", none⟩, ⟨mkSqlStr "CREATE B", some (mkSqlStr "DROP B")⟩], true⟩

/-- C3 counterexample: with persisted version 2 and target 1, the reversed
walk first rolls back unit 1 (counter 2 → 1, pushing DROP B), then reaches
the no-downgrade unit 0 with the counter already AT the target — the claim
says the counter is left unchanged (final version 1), but the code
decrements it unconditionally and returns 0. -/
theorem c3_unconditional_decrement_cex :
    rollbackTo c3Mig 2 1
      = .ok ({ execTransBase with
                sql := [Value.arr [Value.str "DROP B".data], pragmaStmtVal 0] }, 0) := by
  rfl

/-- C3 (amended): during `rollback_to`, a migration unit with no
downgrade script decrements the running counter by one unconditionally —
also for every unit encountered when the counter is at or below the
requested target — clamping at zero, and contributes no SQL. -/
theorem c3_no_downgrade_decrements :
    ∀ (u : MUnit) (rest : List MUnit) (toVersion version : Nat) (q : QueryT),
      u.downgrade = none →
        rollbackLoop toVersion (u :: rest) version q
            = rollbackLoop toVersion rest (version - 1) q ∧
          svDecClamp version = version - 1 := by
  intro u rest toV version q h
  refine ⟨?_, svDecClamp_eq version⟩
  simp only [rollbackLoop, h, svDecClamp_eq]

/-- C3 witness: the amended rule applied at a concrete no-downgrade unit
with the counter already at the target. -/
theorem c3_no_downgrade_decrements_witness :
    rollbackLoop 1 [⟨mkSqlStr "CREATE A", none⟩] 1 execTransBase
        = rollbackLoop 1 [] 0 execTransBase ∧
      svDecClamp 1 = 0 :=
  c3_no_downgrade_decrements ⟨mkSqlStr "CREATE A", none⟩ [] 1 1 execTransBase rfl

/-! ## Claim C5 -/

/-- An associative result mapping carrying the unsigned scalar 3 in its
first row under the pragma's column name. -/
def c5AssocResult : Mapping :=
  .associative ⟨[[("user_version".data, Value.numPos 3)]], none, [("user_version".data, .integer)]⟩

/-- C5 counterexample: a response whose first result is an Associative
mapping supplying an unsigned-integer scalar — the claim says version
retrieval succeeds on the associative path, but the scan handles only
`Standard` and fails with `QueryFail("result not handled")`. -/
theorem c5_associative_rejected_cex :
    pragmaUserVersion [c5AssocResult] = .error (.queryFail .resultNotHandled) := by
  rfl

/-- C5 (amended): version retrieval succeeds only through a `Standard`
mapping whose `value(0,0)` is an unsigned integer (scanned in order); an
`Error` mapping fails naming the statement, an `Associative` (or any other
non-`Standard`) mapping fails with "result not handled", an empty result
list (or exhausting all `Standard` results without an unsigned-integer
value) fails with "no schema version"; a `Standard` whose value does not
qualify lets the scan continue. -/
theorem c5_version_retrieval :
    (pragmaUserVersion [] = .error (.queryFail .noSchemaVersion)) ∧
      (∀ (e : ErrorT) (rest : List Mapping),
        pragmaUserVersion (.error e :: rest) = .error (.queryFail (.errorAt e.error 0))) ∧
      (∀ (a : AssociativeT) (rest : List Mapping),
        pragmaUserVersion (.associative a :: rest) = .error (.queryFail .resultNotHandled)) ∧
      (∀ (s : StandardT) (rest : List Mapping) (n : Nat),
        (s.value 0 0).bind Value.asU64 = some n →
          pragmaUserVersion (.standard s :: rest) = .ok n) ∧
      (∀ (s : StandardT) (rest : List Mapping),
        (s.value 0 0).bind Value.asU64 = none →
          pragmaScan 0 (.standard s :: rest) = pragmaScan 1 rest) ∧
      (∀ (k : Nat) (results : List Mapping) (n : Nat),
        pragmaScan k results = .ok n →
          ∃ s : StandardT,
            Mapping.standard s ∈ results ∧ (s.value 0 0).bind Value.asU64 = some n) := by
  refine ⟨rfl, fun e rest => rfl, fun a rest => rfl, fun s rest n h => ?_, fun s rest h => ?_, ?_⟩
  · simp [pragmaUserVersion, pragmaScan, h]
  · simp [pragmaScan, h]
  · intro k results
    induction results generalizing k with
    | nil => intro n h; simp [pragmaScan] at h
    | cons r rest ih =>
      intro n h
      cases r with
      | associative a => simp [pragmaScan] at h
      | error e => simp [pragmaScan] at h
      | execute e => simp [pragmaScan] at h
      | empty e => simp [pragmaScan] at h
      | standard s =>
        rcases hv : (s.value 0 0).bind Value.asU64 with _ | m
        · simp only [pragmaScan, hv] at h
          obtain ⟨s', hmem, hval⟩ := ih (k + 1) n h
          exact ⟨s', by simp [hmem], hval⟩
        · simp only [pragmaScan, hv, Except.ok.injEq] at h
          exact ⟨s, by simp, by rw [hv, h]⟩

/-- C5 witness: a `Standard` mapping with the unsigned scalar 3 at row 0,
column 0 makes version retrieval succeed, by the amended theorem applied
at a concrete response. -/
theorem c5_version_retrieval_witness :
    pragmaUserVersion
        [.standard ⟨["user_version".data], none, [.integer], some [[.numPos 3]]⟩]
      = .ok 3 :=
  c5_version_retrieval.2.2.2.1 ⟨["user_version".data], none, [.integer], some [[.numPos 3]]⟩ [] 3 rfl

/-! ## Claim C1 -/

/-- Spec-side description of the forward walk with a running position
counter: the unit at position `v` contributes its meaningful upgrade lines
exactly when `d ≤ v`. -/
def upgradeStmtsFrom (d : Nat) : List MUnit → Nat → List Value
  | [], _ => []
  | u :: rest, v =>
    (if d ≤ v then meaningfulStmts u.upgrade else []) ++ upgradeStmtsFrom d rest (v + 1)

theorem upgradeStmtsFrom_eq_drop :
    ∀ (ms : List MUnit) (d v : Nat),
      upgradeStmtsFrom d ms v = upgradeStmts (ms.drop (d - v)) := by
  intro ms
  induction ms with
  | nil => intro d v; simp [upgradeStmtsFrom, upgradeStmts]
  | cons u rest ih =>
    intro d v
    by_cases hdv : d ≤ v
    · have h0 : d - v = 0 := by omega
      have h1 : d - (v + 1) = 0 := by omega
      simp only [upgradeStmtsFrom, hdv, if_true, h0, List.drop_zero, upgradeStmts]
      rw [ih d (v + 1), h1, List.drop_zero]
    · have h1 : d - v = (d - (v + 1)) + 1 := by omega
      simp only [upgradeStmtsFrom, hdv, if_false, List.nil_append, h1, List.drop_succ_cons]
      exact ih d (v + 1)

theorem migrateLoop_none_eq :
    ∀ (ms : List MUnit) (d v : Nat) (q : QueryT),
      q.endpoint ≠ .query → v + ms.length < U64MOD →
      migrateLoop d none ms v q
        = (v + ms.length, { q with sql := q.sql ++ upgradeStmtsFrom d ms v }) := by
  intro ms
  induction ms with
  | nil => intro d v q hq hbound; simp [migrateLoop, upgradeStmtsFrom]
  | cons u rest ih =>
    intro d v q hq hbound
    have hone : svAddOne v = v + 1 := by
      have : v + 1 < U64MOD := by simp only [List.length_cons] at hbound; omega
      simp [svAddOne, Nat.mod_eq_of_lt this]
    simp only [migrateLoop, Option.filter_none, Option.isSome_none, Bool.false_eq_true,
      if_false, hone]
    by_cases hdv : d ≤ v
    · rw [if_pos hdv, pushScriptLines_not_query q hq]
      rw [ih d (v + 1) { q with sql := q.sql ++ meaningfulStmts u.upgrade } hq
        (by simp only [List.length_cons] at hbound ⊢; omega)]
      simp only [upgradeStmtsFrom, hdv, if_true, List.append_assoc, List.length_cons,
        Prod.mk.injEq]
      exact ⟨by omega, trivial⟩
    · rw [if_neg hdv]
      rw [ih d (v + 1) q hq (by simp only [List.length_cons] at hbound ⊢; omega)]
      simp only [upgradeStmtsFrom, hdv, if_false, List.nil_append, List.length_cons,
        Prod.mk.injEq]
      exact ⟨by omega, trivial⟩

/-- C1 counterexample: the empty migration list with a bound request
builder and persisted version 0 (which satisfies d ≤ n for n = 0): the
claim predicts a successful return of SchemaVersion 0, but `migrate`
fails with `NoData` and returns no version at all. -/
theorem c1_empty_list_cex :
    migrate ⟨[], true⟩ 0 = .error .noData ∧
      (migrate (⟨[], true⟩ : Migration) 0).toOption = none := by
  exact ⟨rfl, rfl⟩

/-- C1 (amended): for every NONEMPTY migration list of n units (with a
request builder bound) and every persisted version d with d ≤ n,
`migrate()` builds one transaction-enabled write query containing, in list
order, the meaningful upgrade lines of exactly the units at zero-based
positions d through n-1 (units below d contribute nothing), followed by
one final statement writing the new persisted version n, and returns
version n.  (The n < 2^64 bound is the Rust-side `Vec` length bound.) -/
theorem c1_migrate_full :
    ∀ (m : Migration) (d : Nat),
      m.migrations ≠ [] → m.hasRequestBuilder = true →
      m.migrations.length < U64MOD → d ≤ m.migrations.length →
      execTransBase.endpoint = .execute ∧ execTransBase.isTransaction = true ∧
      migrate m d
        = .ok ({ execTransBase with
                  sql := upgradeStmts (m.migrations.drop d)
                    ++ [pragmaStmtVal m.migrations.length] },
               m.migrations.length) := by
  intro m d hne hrb hbound _hd
  refine ⟨rfl, rfl, ?_⟩
  have hq : (enableTransactionHelper connectionExecute).endpoint ≠ Endpoint.query := by decide
  have hstep : migrate m d
      = Except.ok
          (runNSetPragmaUserVersion
            (migrateLoop d none m.migrations 0 (enableTransactionHelper connectionExecute)).2
            (migrateLoop d none m.migrations 0 (enableTransactionHelper connectionExecute)).1,
           (migrateLoop d none m.migrations 0 (enableTransactionHelper connectionExecute)).1) := by
    unfold migrate migrateTo
    rw [if_neg hne, if_neg (by simp [hrb])]
  rw [hstep]
  rw [migrateLoop_none_eq m.migrations d 0 _ hq (by simpa using hbound)]
  rw [upgradeStmtsFrom_eq_drop m.migrations d 0]
  simp only [Nat.sub_zero, Nat.zero_add]
  simp only [runNSetPragmaUserVersion, pushSqlStrMulti]
  rw [pushSqlHelper_not_query _ (by exact hq) _]
  simp only [execTransBase]
  simp [pragmaStmtVal, Value.isString]
  rfl

/-- The spec's three-unit scenario list. -/
def c1Mig : Migration :=
  ⟨[⟨mkSqlStr "CREATE A", none⟩, ⟨mkSqlStr "CREATE B", none⟩, ⟨mkSqlStr "CREATE C", none⟩],
    true⟩

/-- C1 witness: three units, persisted version 2 — only unit 2's upgrade
runs and version 3 is written and returned; the amended theorem applied at
the concrete list. -/
theorem c1_migrate_full_witness :
    migrate c1Mig 2
      = .ok ({ execTransBase with
                sql := upgradeStmts (c1Mig.migrations.drop 2) ++ [pragmaStmtVal 3] }, 3) :=
  (c1_migrate_full c1Mig 2 (by decide) rfl (by decide) (by decide)).2.2

/-! ## Claim C4 -/

theorem migrateLoop_some_fst :
    ∀ (ms : List MUnit) (d T v : Nat) (q : QueryT),
      v + ms.length < U64MOD →
      (migrateLoop d (some T) ms v q).1 = min (max v (T + 1)) (v + ms.length) := by
  intro ms
  induction ms with
  | nil =>
    intro d T v q _
    simp only [migrateLoop, List.length_nil, Nat.add_zero]
    omega
  | cons u rest ih =>
    intro d T v q hbound
    have hone : svAddOne v = v + 1 := by
      have : v + 1 < U64MOD := by simp only [List.length_cons] at hbound; omega
      simp [svAddOne, Nat.mod_eq_of_lt this]
    by_cases hTv : T < v
    · have hfilter : (some T).filter (fun x => decide (x < v)) = some T := by
        simp [Option.filter, hTv]
      simp only [migrateLoop, hfilter, Option.isSome_some, if_true, List.length_cons]
      omega
    · have hfilter : (some T).filter (fun x => decide (x < v)) = none := by
        simp [Option.filter, hTv]
      simp only [migrateLoop, hfilter, Option.isSome_none, Bool.false_eq_true, if_false,
        hone, List.length_cons]
      rw [ih d T (v + 1) _ (by simp only [List.length_cons] at hbound ⊢; omega)]
      omega

/-- C4: with an explicitly supplied target T, after the forward walk the
counter is decremented by one and compared with T: a mismatch — which
happens exactly when T is at or beyond the list length n, in particular
for SchemaVersion MAX — returns `DataMalformat("no migration T")` naming
the target, and the write transaction is never executed (the error return
precedes it); a match still behind the fetched db_version is clamped up to
db_version, so the returned version is max(db_version, T) and is never
moved backward. -/
theorem c4_target_version :
    ∀ (m : Migration) (d T : Nat),
      m.migrations ≠ [] → m.hasRequestBuilder = true → m.migrations.length < U64MOD →
      (m.migrations.length ≤ T →
        migrateTo m d (some T) = .error (.dataMalformat (.noMigration T))) ∧
      (T < m.migrations.length →
        (migrateTo m d (some T)).map Prod.snd = .ok (max d T)) := by
  intro m d T hne hrb hbound
  have hq : (enableTransactionHelper connectionExecute).endpoint ≠ Endpoint.query := by decide
  have hfst := migrateLoop_some_fst m.migrations d T 0 (enableTransactionHelper connectionExecute)
    (by simpa using hbound)
  have hlen : 1 ≤ m.migrations.length := by
    cases hm : m.migrations with
    | nil => exact absurd hm hne
    | cons a l => simp [hm]
  have hstep :
      migrateTo m d (some T)
        = (let r := migrateLoop d (some T) m.migrations 0 (enableTransactionHelper connectionExecute)
           let version := svDecClamp r.1
           if version ≠ T then .error (.dataMalformat (.noMigration T))
           else
             let version' := if version < d then d else version
             .ok (runNSetPragmaUserVersion r.2 version', version')) := by
    unfold migrateTo
    rw [if_neg hne, if_neg (by simp [hrb])]
  constructor
  · intro hT
    rw [hstep]
    simp only [svDecClamp_eq, hfst]
    rw [if_pos (by omega)]
  · intro hT
    rw [hstep]
    simp only [svDecClamp_eq, hfst]
    have hver : min (max 0 (T + 1)) (0 + m.migrations.length) - 1 = T := by omega
    rw [hver, if_neg (by omega)]
    by_cases hTd : T < d
    · rw [if_pos hTd]
      simp only [Except.map]
      rw [Nat.max_eq_left (by omega)]
    · rw [if_neg hTd]
      simp only [Except.map]
      rw [Nat.max_eq_right (by omega)]

/-- The concrete list for the C4 witness. -/
def c4Mig : Migration :=
  ⟨[⟨mkSqlStr "CREATE A", none⟩, ⟨mkSqlStr "CREATE B", none⟩, ⟨mkSqlStr "CREATE C", none⟩],
    true⟩

/-- C4 witness: on a three-unit list, `migrate_to(MAX)` fails with
`DataMalformat` naming MAX, and `migrate_to(1)` starting from db_version 2
returns the clamped version 2; both by the theorem applied at concrete
inputs. -/
theorem c4_target_version_witness :
    migrateTo c4Mig 0 (some (U64MOD - 1))
        = .error (.dataMalformat (.noMigration (U64MOD - 1))) ∧
      (migrateTo c4Mig 2 (some 1)).map Prod.snd = .ok 2 :=
  ⟨(c4_target_version c4Mig 0 (U64MOD - 1) (by decide) rfl (by decide)).1 (by decide),
    (c4_target_version c4Mig 2 1 (by decide) rfl (by decide)).2 (by decide)⟩

/-! ## Claim C2 -/

/-- Spec-side description of the backward walk (over an already reversed
unit list): a unit with a downgrade script contributes its meaningful
lines and one clamped decrement exactly while the counter is strictly
above the target; a unit without one decrements unconditionally. -/
def rollbackWalk (target : Nat) : List MUnit → Nat → Nat × List Value
  | [], version => (version, [])
  | u :: rest, version =>
    match u.downgrade with
    | some dg =>
      if target < version then
        let r := rollbackWalk target rest (version - 1)
        (r.1, meaningfulStmts dg ++ r.2)
      else rollbackWalk target rest version
    | none => rollbackWalk target rest (version - 1)

theorem rollbackLoop_eq_walk :
    ∀ (us : List MUnit) (toV version : Nat) (q : QueryT),
      q.endpoint ≠ .query →
      rollbackLoop toV us version q
        = ((rollbackWalk toV us version).1,
           { q with sql := q.sql ++ (rollbackWalk toV us version).2 }) := by
  intro us
  induction us with
  | nil => intro toV version q _; simp [rollbackLoop, rollbackWalk]
  | cons u rest ih =>
    intro toV version q hq
    cases hdg : u.downgrade with
    | none =>
      simp only [rollbackLoop, rollbackWalk, hdg, svDecClamp_eq]
      exact ih toV (version - 1) q hq
    | some dg =>
      by_cases htv : toV < version
      · simp only [rollbackLoop, rollbackWalk, hdg, if_pos htv, svDecClamp_eq]
        rw [pushScriptLines_not_query q hq]
        rw [ih toV (version - 1) { q with sql := q.sql ++ meaningfulStmts dg } hq]
        simp [List.append_assoc]
      · simp only [rollbackLoop, rollbackWalk, hdg, if_neg htv]
        exact ih toV version q hq

/-- Two units, both with downgrade scripts, for the C2 counterexample. -/
def c2Mig : Migration :=
  ⟨[⟨mkSqlStr "CREATE A", some (mkSqlStr "DROP A")⟩,
    ⟨mkSqlStr "CREATE B", some (mkSqlStr "DROP B")⟩], true⟩

/-- C2 counterexample: db_version 1 — under the version protocol only unit
0 was ever applied, and the claim says units at positions ≥ 1 contribute
no downgrade SQL; but `rollback_to(0)` pushes the downgrade of unit 1 (the
last list entry) and unit 0's downgrade is never executed. -/
theorem c2_walk_misaligned_cex :
    rollbackTo c2Mig 1 0
      = .ok ({ execTransBase with
                sql := [Value.arr [Value.str "DROP B".data], pragmaStmtVal 0] }, 0) := by
  rfl

/-- C2 (amended): `rollback_to` walks the migration list in reverse order
starting from the LAST unit of the list — not from position db_version —
with the running counter starting at db_version: every unit with a
downgrade script contributes its downgrade statements and one clamped
decrement while the counter is strictly above the target, every unit
without one decrements silently; a unit's position relative to db_version
plays no role in whether its downgrade SQL enters the transaction. -/
theorem c2_rollback_reverse_walk :
    ∀ (m : Migration) (dbVersion toVersion : Nat),
      m.migrations ≠ [] → m.hasRequestBuilder = true → toVersion < dbVersion →
      rollbackTo m dbVersion toVersion
        = .ok ({ execTransBase with
                  sql := (rollbackWalk toVersion m.migrations.reverse dbVersion).2
                    ++ [pragmaStmtVal (rollbackWalk toVersion m.migrations.reverse dbVersion).1] },
               (rollbackWalk toVersion m.migrations.reverse dbVersion).1) := by
  intro m dbV toV hne hrb htv
  have hq : (enableTransactionHelper connectionExecute).endpoint ≠ Endpoint.query := by decide
  have hstep :
      rollbackTo m dbV toV
        = (let r := rollbackLoop toV m.migrations.reverse dbV (enableTransactionHelper connectionExecute)
           Except.ok (runNSetPragmaUserVersion r.2 r.1, r.1)) := by
    unfold rollbackTo
    rw [if_neg hne, if_neg (by simp [hrb]), if_neg (by omega)]
  rw [hstep]
  rw [rollbackLoop_eq_walk m.migrations.reverse toV dbV _ hq]
  simp only [runNSetPragmaUserVersion, pushSqlStrMulti]
  rw [pushSqlHelper_not_query _ (by exact hq) _]
  simp only [execTransBase]
  simp [pragmaStmtVal, Value.isString]
  rfl

/-- C2 witness: the amended walk applied at a concrete two-unit list with
db_version 2 and target 0: both downgrades run in reverse order. -/
theorem c2_rollback_reverse_walk_witness :
    rollbackTo c2Mig 2 0
      = .ok ({ execTransBase with
                sql := (rollbackWalk 0 c2Mig.migrations.reverse 2).2
                  ++ [pragmaStmtVal (rollbackWalk 0 c2Mig.migrations.reverse 2).1] },
             (rollbackWalk 0 c2Mig.migrations.reverse 2).1) :=
  c2_rollback_reverse_walk c2Mig 2 0 (by decide) rfl (by decide)

/-! ## Claim C7: text-level groundwork -/

theorem head_dropWhile_false {p : Char → Bool} :
    ∀ (l : List Char) (c : Char), (l.dropWhile p).head? = some c → p c = false := by
  intro l
  induction l with
  | nil => intro c h; simp at h
  | cons a l ih =>
    intro c h
    by_cases hp : p a
    · rw [List.dropWhile_cons_of_pos hp] at h
      exact ih c h
    · rw [List.dropWhile_cons_of_neg hp] at h
      simp at h
      rw [← h]
      simpa using hp

theorem mem_dropWhile {p : Char → Bool} :
    ∀ (l : List Char) (x : Char), x ∈ l.dropWhile p → x ∈ l := by
  intro l
  induction l with
  | nil => intro x h; simp at h
  | cons a l ih =>
    intro x h
    by_cases hp : p a
    · rw [List.dropWhile_cons_of_pos hp] at h
      exact List.mem_cons_of_mem a (ih x h)
    · rwa [List.dropWhile_cons_of_neg hp] at h

theorem mem_trimStart (l : List Char) (x : Char) (h : x ∈ trimStartChars l) : x ∈ l :=
  mem_dropWhile l x h

theorem mem_trimEnd (l : List Char) (x : Char) (h : x ∈ trimEndChars l) : x ∈ l := by
  unfold trimEndChars at h
  rw [List.mem_reverse] at h
  simpa using mem_dropWhile l.reverse x h

theorem mem_trim (l : List Char) (x : Char) (h : x ∈ trimChars l) : x ∈ l :=
  mem_trimStart l x (mem_trimEnd (trimStartChars l) x h)

/-- The head of a nonempty `trim_start` result is not whitespace. -/
theorem trimStart_head (l : List Char) (c : Char)
    (h : (trimStartChars l).head? = some c) : isRustWS c = false :=
  head_dropWhile_false l c h

/-- The last character of a nonempty `trim_end` result is not whitespace. -/
theorem trimEnd_getLast (l : List Char) (c : Char)
    (h : (trimEndChars l).getLast? = some c) : isRustWS c = false := by
  unfold trimEndChars at h
  rw [List.getLast?_reverse] at h
  exact head_dropWhile_false l.reverse c h

/-- `trim_start` is the identity when the head is not whitespace. -/
theorem trimStart_of_head (l : List Char) (c : Char) (hh : l.head? = some c)
    (hc : isRustWS c = false) : trimStartChars l = l := by
  cases l with
  | nil => rfl
  | cons a l =>
    simp at hh
    subst hh
    unfold trimStartChars
    rw [List.dropWhile_cons_of_neg (by simp only [hc]; exact Bool.false_ne_true)]

/-- `trim_end` is the identity when the last character is not whitespace. -/
theorem trimEnd_of_getLast (l : List Char) (c : Char) (hh : l.getLast? = some c)
    (hc : isRustWS c = false) : trimEndChars l = l := by
  unfold trimEndChars
  rw [← List.head?_reverse] at hh
  cases hr : l.reverse with
  | nil => simp [hr] at hh
  | cons a r =>
    rw [hr] at hh
    simp at hh
    subst hh
    rw [List.dropWhile_cons_of_neg (by simp only [hc]; exact Bool.false_ne_true)]
    rw [← hr, List.reverse_reverse]

/-- `trim_end` swallows a trailing whitespace character. -/
theorem trimEnd_append_ws (s : List Char) (w : Char) (hw : isRustWS w = true) :
    trimEndChars (s ++ [w]) = trimEndChars s := by
  unfold trimEndChars
  rw [List.reverse_append]
  simp only [List.reverse_cons, List.reverse_nil, List.nil_append, List.singleton_append]
  rw [List.dropWhile_cons_of_pos (by simp [hw])]

/-- The `trim_end` result is a prefix: the original is the result followed
by the whitespace tail. -/
theorem trimEnd_append_eq (s : List Char) :
    trimEndChars s ++ (s.reverse.takeWhile isRustWS).reverse = s := by
  unfold trimEndChars
  rw [← List.reverse_append, List.takeWhile_append_dropWhile, List.reverse_reverse]

/-- A list equal to its own `trim` has a non-whitespace last character. -/
theorem trim_self_getLast (l : List Char) (htrim : trimChars l = l) (c : Char)
    (hh : l.getLast? = some c) : isRustWS c = false := by
  unfold trimChars at htrim
  rw [← htrim] at hh
  exact trimEnd_getLast _ c hh

/-- A list with non-whitespace head and last characters is its own `trim`. -/
theorem trim_of_ends (l : List Char) (hc : ∀ c, l.head? = some c → isRustWS c = false)
    (hd : ∀ c, l.getLast? = some c → isRustWS c = false) : trimChars l = l := by
  cases hl : l.head? with
  | none =>
    have : l = [] := by cases l <;> simp_all
    simp [this, trimChars, trimStartChars, trimEndChars]
  | some c =>
    unfold trimChars
    rw [trimStart_of_head l c hl (hc c hl)]
    cases hg : l.getLast? with
    | none =>
      have : l = [] := by
        cases l with
        | nil => rfl
        | cons a t => simp [List.getLast?_eq_getLast] at hg
      simp [this, trimEndChars]
    | some d => exact trimEnd_of_getLast l d hg (hd d hg)

theorem mem_dropLast {l : List Char} {x : Char} (h : x ∈ l.dropLast) : x ∈ l :=
  List.Sublist.mem h (List.dropLast_sublist l)

theorem splitInclNL_ne_nil :
    ∀ (s : List Char) (seg : List Char), seg ∈ splitInclNL s → seg ≠ [] := by
  intro s
  induction s with
  | nil => intro seg h; simp [splitInclNL] at h
  | cons c rest ih =>
    intro seg h
    by_cases hc : c = '\n'
    · rw [splitInclNL, if_pos hc] at h
      rcases List.mem_cons.mp h with h1 | h1
      · subst h1; simp
      · exact ih seg h1
    · rw [splitInclNL, if_neg hc] at h
      cases hsplit : splitInclNL rest with
      | nil => rw [hsplit] at h; simp at h; subst h; simp
      | cons l ls =>
        rw [hsplit] at h
        rcases List.mem_cons.mp h with h1 | h1
        · subst h1; simp
        · exact ih seg (by rw [hsplit]; exact List.mem_cons_of_mem l h1)

theorem splitInclNL_flatten : ∀ s : List Char, (splitInclNL s).flatten = s := by
  intro s
  induction s with
  | nil => rfl
  | cons c rest ih =>
    by_cases hc : c = '\n'
    · rw [splitInclNL, if_pos hc]
      simp [hc, ih]
    · rw [splitInclNL, if_neg hc]
      cases hsplit : splitInclNL rest with
      | nil =>
        rw [hsplit] at ih
        simp at ih
        simp [← ih]
      | cons l ls =>
        rw [hsplit] at ih
        simp only [List.flatten_cons] at ih ⊢
        simp [← ih]

theorem splitInclNL_eq_nil_iff (s : List Char) : splitInclNL s = [] ↔ s = [] := by
  constructor
  · intro h
    have := splitInclNL_flatten s
    rw [h] at this
    simpa using this.symm
  · intro h; subst h; rfl

theorem splitInclNL_dropLast_no_NL :
    ∀ (s : List Char) (seg : List Char), seg ∈ splitInclNL s → '\n' ∉ seg.dropLast := by
  intro s
  induction s with
  | nil => intro seg h; simp [splitInclNL] at h
  | cons c rest ih =>
    intro seg h
    by_cases hc : c = '\n'
    · rw [splitInclNL, if_pos hc] at h
      rcases List.mem_cons.mp h with h1 | h1
      · subst h1; simp
      · exact ih seg h1
    · rw [splitInclNL, if_neg hc] at h
      cases hsplit : splitInclNL rest with
      | nil => rw [hsplit] at h; simp at h; subst h; simp
      | cons l ls =>
        rw [hsplit] at h
        rcases List.mem_cons.mp h with h1 | h1
        · subst h1
          have hl : l ≠ [] := splitInclNL_ne_nil rest l (by rw [hsplit]; simp)
          cases l with
          | nil => exact absurd rfl hl
          | cons d ds =>
            rw [List.dropLast_cons₂]
            intro hmem
            rcases List.mem_cons.mp hmem with h2 | h2
            · exact hc h2.symm
            · exact ih (d :: ds) (by rw [hsplit]; simp) h2
        · exact ih seg (by rw [hsplit]; exact List.mem_cons_of_mem l h1)

theorem rustLines_no_NL : ∀ (s : List Char) (l : List Char), l ∈ rustLines s → '\n' ∉ l := by
  intro s l h
  unfold rustLines at h
  rcases List.mem_map.mp h with ⟨seg, hseg, rfl⟩
  have hdl := splitInclNL_dropLast_no_NL s seg hseg
  have hne := splitInclNL_ne_nil s seg hseg
  unfold chopLineEnd
  by_cases hlast : seg.getLast? = some '\n'
  · rw [if_pos hlast]
    by_cases hcr : seg.dropLast.getLast? = some '\r'
    · rw [if_pos hcr]
      intro hmem
      exact hdl (mem_dropLast hmem)
    · rw [if_neg hcr]
      exact hdl
  · rw [if_neg hlast]
    intro hmem
    have hdecomp := List.dropLast_append_getLast hne
    rw [← hdecomp] at hmem
    rcases List.mem_append.mp hmem with h1 | h1
    · exact hdl h1
    · simp at h1
      rw [List.getLast?_eq_getLast seg hne, h1] at hlast
      exact hlast rfl

/-- The inverse of line splitting: glue the lines back with a single
newline between consecutive lines (no trailing newline). -/
def joinNL : List (List Char) → List Char
  | [] => []
  | [l] => l
  | l :: ls => l ++ '\n' :: joinNL ls

theorem joinNL_cons_head (c : Char) (x : List Char) (xs : List (List Char)) :
    joinNL ((c :: x) :: xs) = c :: joinNL (x :: xs) := by
  cases xs with
  | nil => rfl
  | cons y ys => simp [joinNL]

theorem chop_cons (c : Char) (l : List Char) (hl : l ≠ [])
    (hcr : c = '\r' → l ≠ ['\n']) : chopLineEnd (c :: l) = c :: chopLineEnd l := by
  unfold chopLineEnd
  have hlast : (c :: l).getLast? = l.getLast? := by
    cases l with
    | nil => exact absurd rfl hl
    | cons d ds => exact List.getLast?_cons_cons
  by_cases hnl : l.getLast? = some '\n'
  · rw [hlast, if_pos hnl, if_pos hnl]
    have hdrop : (c :: l).dropLast = c :: l.dropLast := by
      cases l with
      | nil => exact absurd rfl hl
      | cons d ds => exact List.dropLast_cons₂
    rw [hdrop]
    cases hdl : l.dropLast with
    | nil =>
      have hl' : l = ['\n'] := by
        cases l with
        | nil => exact absurd rfl hl
        | cons d ds =>
          cases ds with
          | nil =>
            simp at hnl
            rw [hnl]
          | cons e es => simp [List.dropLast_cons₂] at hdl
      have hc : c ≠ '\r' := fun h => (hcr h) hl'
      simp [hc]
    | cons d ds =>
      simp only [List.getLast?_cons_cons]
      by_cases hr : (d :: ds).getLast? = some '\r'
      · rw [if_pos hr, if_pos hr, List.dropLast_cons₂]
      · rw [if_neg hr, if_neg hr]
  · rw [hlast, if_neg hnl, if_neg hnl]

theorem splitInclNL_cons_nl (rest : List Char) :
    splitInclNL ('\n' :: rest) = ['\n'] :: splitInclNL rest := by
  conv_lhs => unfold splitInclNL
  rw [if_pos rfl]

theorem splitInclNL_cons_ne (c : Char) (rest : List Char) (hc : c ≠ '\n') :
    splitInclNL (c :: rest)
      = match splitInclNL rest with
        | [] => [[c]]
        | l :: ls => (c :: l) :: ls := by
  conv_lhs => unfold splitInclNL
  rw [if_neg hc]

theorem joinNL_rustLines :
    ∀ (t : List Char), t.getLast? ≠ some '\n' →
      List.Chain' (fun a b => b = '\n' → a ≠ '\r') t →
      joinNL (rustLines t) = t := by
  intro t
  induction t with
  | nil => intro _ _; rfl
  | cons c rest ih =>
    intro hlast hchain
    by_cases hc : c = '\n'
    · subst hc
      cases rest with
      | nil => simp at hlast
      | cons d ds =>
        have hrl : rustLines ('\n' :: d :: ds) = [] :: rustLines (d :: ds) := by
          unfold rustLines
          rw [splitInclNL_cons_nl]
          simp [chopLineEnd]
        rw [hrl]
        have hrest : rustLines (d :: ds) ≠ [] := by
          unfold rustLines
          simp [splitInclNL_eq_nil_iff]
        cases hr : rustLines (d :: ds) with
        | nil => exact absurd hr hrest
        | cons x xs =>
          have hjoin : joinNL ([] :: x :: xs) = '\n' :: joinNL (x :: xs) := by simp [joinNL]
          rw [hjoin, ← hr]
          rw [ih (by rwa [List.getLast?_cons_cons] at hlast) (List.Chain'.tail hchain)]
    · cases hsplit : splitInclNL rest with
      | nil =>
        have hrest : rest = [] := (splitInclNL_eq_nil_iff rest).mp hsplit
        subst hrest
        have hone : rustLines [c] = [[c]] := by
          unfold rustLines
          rw [splitInclNL_cons_ne c [] hc, hsplit]
          simp [chopLineEnd, hc]
        rw [hone]
        rfl
      | cons l ls =>
        have hl : l ≠ [] := splitInclNL_ne_nil rest l (by rw [hsplit]; simp)
        have hrl : rustLines (c :: rest) = chopLineEnd (c :: l) :: ls.map chopLineEnd := by
          unfold rustLines
          rw [splitInclNL_cons_ne c rest hc, hsplit]
          rfl
        have hrestne : rest ≠ [] := by
          intro h
          rw [h] at hsplit
          simp [splitInclNL] at hsplit
        have hcrhyp : c = '\r' → l ≠ ['\n'] := by
          intro hcr hln
          have hfl := splitInclNL_flatten rest
          rw [hsplit, hln] at hfl
          have hrestval : rest = '\n' :: ls.flatten := by simpa using hfl.symm
          rw [hrestval] at hchain
          exact absurd hcr ((List.chain'_cons.mp hchain).1 rfl)
        rw [hrl, chop_cons c l hl hcrhyp]
        have hrestlines : rustLines rest = chopLineEnd l :: ls.map chopLineEnd := by
          unfold rustLines
          rw [hsplit]
          simp
        rw [joinNL_cons_head, ← hrestlines]
        have hlast' : rest.getLast? ≠ some '\n' := by
          cases rest with
          | nil => exact absurd rfl hrestne
          | cons d ds => rwa [List.getLast?_cons_cons] at hlast
        rw [ih hlast' (List.Chain'.tail hchain)]

/-- The local adjacency invariant of `parse_str` output: after a newline
comes a non-whitespace, non-comment character; before a newline stands a
non-whitespace character. -/
def PairOK (a b : Char) : Prop :=
  (a = '\n' → isRustWS b = false ∧ isCommentStart b = false) ∧
    (b = '\n' → isRustWS a = false)

/-- The head invariant of `parse_str` output: a nonempty output starts
with a non-whitespace, non-comment character. -/
def HeadOK (s : List Char) : Prop :=
  ∀ c, s.head? = some c → isRustWS c = false ∧ isCommentStart c = false

theorem chain_of_no_NL : ∀ (l : List Char), '\n' ∉ l → List.Chain' PairOK l := by
  intro l
  induction l with
  | nil => intro _; simp
  | cons a rest ih =>
    intro h
    rw [List.chain'_cons']
    refine ⟨fun y hy => ?_, ih (fun hm => h (List.mem_cons_of_mem a hm))⟩
    have hy' : y ∈ rest := List.mem_of_mem_head? hy
    constructor
    · intro ha
      exact absurd (ha ▸ List.mem_cons_self a rest) h
    · intro hyn
      exact absurd (hyn ▸ List.mem_cons_of_mem a hy') h

theorem stripSuffix_eq_some (line l' : List Char) (h : stripSuffixBackslash line = some l') :
    l' = line.dropLast ∧ line.getLast? = some '\\' := by
  unfold stripSuffixBackslash at h
  by_cases hc : line.getLast? = some '\\'
  · rw [if_pos hc] at h
    exact ⟨(Option.some.injEq _ _ ▸ h).symm, hc⟩
  · rw [if_neg hc] at h
    exact absurd h (by simp)

/-- The head of a nonempty `trim_end` is the head of the original list. -/
theorem head?_trimEnd (y : List Char) (c : Char) (h : (trimEndChars y).head? = some c) :
    y.head? = some c := by
  have hne : trimEndChars y ≠ [] := by
    intro hnil
    rw [hnil] at h
    simp at h
  conv_lhs => rw [← trimEnd_append_eq y]
  rwa [List.head?_append_of_ne_nil _ hne]

/-- The head of nonempty line content is never whitespace. -/
theorem content_head_ws (line : List Char) (c : Char) (cs : List Char)
    (h : (lineContent line).2 = c :: cs) : isRustWS c = false := by
  unfold lineContent at h
  cases hstrip : stripSuffixBackslash line with
  | some l' =>
    rw [hstrip] at h
    simp at h
    exact trimStart_head l' c (by rw [h]; rfl)
  | none =>
    rw [hstrip] at h
    simp at h
    have h2 : (trimEndChars (trimStartChars line)).head? = some c := by
      rw [show trimChars line = trimEndChars (trimStartChars line) from rfl] at h
      rw [h]
      rfl
    exact trimStart_head line c (head?_trimEnd _ c h2)

/-- Line content contains no newline when the line contains none. -/
theorem content_no_NL (line : List Char) (hline : '\n' ∉ line) :
    '\n' ∉ (lineContent line).2 := by
  unfold lineContent
  cases hstrip : stripSuffixBackslash line with
  | some l' =>
    obtain ⟨hdrop, _⟩ := stripSuffix_eq_some line l' hstrip
    intro hmem
    exact hline (mem_dropLast (hdrop ▸ mem_trimStart l' '\n' hmem))
  | none =>
    intro hmem
    exact hline (mem_trim line '\n' hmem)

theorem parseLines_cons (line : List Char) (rest : List (List Char)) :
    parseLines (line :: rest)
      = match (lineContent line).2 with
        | [] => parseLines rest
        | c :: _ =>
          if isCommentStart c then parseLines rest
          else (lineContent line).2 ++ (if (lineContent line).1 then [] else ['\n'])
            ++ parseLines rest := rfl

theorem lineContent_not_multi (line : List Char) (h : (lineContent line).1 = false) :
    (lineContent line).2 = trimChars line := by
  unfold lineContent at h ⊢
  cases hstrip : stripSuffixBackslash line with
  | some l' => rw [hstrip] at h; simp at h
  | none => rfl

theorem parseLines_invariant :
    ∀ ls : List (List Char), (∀ l ∈ ls, '\n' ∉ l) →
      HeadOK (parseLines ls) ∧ List.Chain' PairOK (parseLines ls) := by
  intro ls
  induction ls with
  | nil =>
    intro _
    exact ⟨fun c h => by simp [parseLines] at h, by simp [parseLines]⟩
  | cons line rest ih =>
    intro hNL
    have hline : '\n' ∉ line := hNL line (by simp)
    obtain ⟨ihHead, ihChain⟩ := ih (fun l hl => hNL l (List.mem_cons_of_mem line hl))
    cases hm : (lineContent line).2 with
    | nil =>
      have hval : parseLines (line :: rest) = parseLines rest := by
        rw [parseLines_cons, hm]
      rw [hval]
      exact ⟨ihHead, ihChain⟩
    | cons c cs =>
      by_cases hcom : isCommentStart c
      · have hval : parseLines (line :: rest) = parseLines rest := by
          rw [parseLines_cons, hm]
          simp [hcom]
        rw [hval]
        exact ⟨ihHead, ihChain⟩
      · have hcontent : '\n' ∉ c :: cs := hm ▸ content_no_NL line hline
        have hcws : isRustWS c = false := content_head_ws line c cs hm
        have hcomF : isCommentStart c = false := by simpa using hcom
        have hval : parseLines (line :: rest)
            = (c :: cs) ++ ((if (lineContent line).1 then [] else ['\n'])
              ++ parseLines rest) := by
          rw [parseLines_cons, hm]
          simp [hcom, hm]
        rw [hval]
        cases hmulti : (lineContent line).1 with
        | true =>
          rw [if_pos rfl, List.nil_append]
          constructor
          · intro e he
            simp at he
            exact he ▸ ⟨hcws, hcomF⟩
          · rw [List.chain'_append]
            refine ⟨chain_of_no_NL _ hcontent, ihChain, fun x hx y hy => ?_⟩
            constructor
            · intro hxn
              exact absurd (hxn ▸ List.mem_of_mem_getLast? hx) hcontent
            · intro hyn
              rw [hyn] at hy
              have := (ihHead '\n' (Option.mem_def.mp hy)).1
              exact absurd this (by decide)
        | false =>
          rw [if_neg (by simp)]
          have hm2 : trimChars line = c :: cs := by
            rw [← lineContent_not_multi line hmulti, hm]
          have hlastws : ∀ d, (c :: cs).getLast? = some d → isRustWS d = false := by
            intro d hd
            rw [← hm2] at hd
            exact trimEnd_getLast _ d hd
          constructor
          · intro e he
            simp at he
            exact he ▸ ⟨hcws, hcomF⟩
          · rw [List.chain'_append]
            refine ⟨chain_of_no_NL _ hcontent, ?_, fun x hx y hy => ?_⟩
            · rw [List.singleton_append, List.chain'_cons']
              refine ⟨fun y hy => ?_, ihChain⟩
              have hy' := ihHead y (Option.mem_def.mp hy)
              exact ⟨fun _ => hy', fun hyn => hyn ▸ hy'.1⟩
            · constructor
              · intro hxn
                exact absurd (hxn ▸ List.mem_of_mem_getLast? hx) hcontent
              · intro _
                exact hlastws x (Option.mem_def.mp hx)

theorem splitInclNL_no_NL : ∀ t : List Char, t ≠ [] → '\n' ∉ t → splitInclNL t = [t] := by
  intro t
  induction t with
  | nil => intro h _; exact absurd rfl h
  | cons c rest ih =>
    intro _ hnl
    have hc : c ≠ '\n' := fun h => hnl (h ▸ List.mem_cons_self c rest)
    rw [splitInclNL_cons_ne c rest hc]
    cases hrest : rest with
    | nil => rw [show splitInclNL [] = [] from rfl]
    | cons d ds =>
      rw [← hrest, ih (by rw [hrest]; simp)
        (fun h => hnl (List.mem_cons_of_mem c h))]

theorem rustLines_single (t : List Char) (hne : t ≠ []) (hnl : '\n' ∉ t) :
    rustLines t = [t] := by
  unfold rustLines
  rw [splitInclNL_no_NL t hne hnl]
  have hlast : t.getLast? ≠ some '\n' := by
    intro h
    exact hnl (List.mem_of_mem_getLast? h)
  simp [chopLineEnd, hlast]

theorem splitInclNL_append :
    ∀ (a t' : List Char), '\n' ∉ a →
      splitInclNL (a ++ '\n' :: t') = (a ++ ['\n']) :: splitInclNL t' := by
  intro a
  induction a with
  | nil => intro t' _; simp [splitInclNL_cons_nl]
  | cons c a' ih =>
    intro t' hnl
    have hc : c ≠ '\n' := fun h => hnl (h ▸ List.mem_cons_self c a')
    rw [List.cons_append, splitInclNL_cons_ne c (a' ++ '\n' :: t') hc,
      ih t' (fun h => hnl (List.mem_cons_of_mem c h))]
    rfl

theorem rustLines_append (a t' : List Char) (hnl : '\n' ∉ a)
    (hcr : a.getLast? ≠ some '\r') :
    rustLines (a ++ '\n' :: t') = a :: rustLines t' := by
  unfold rustLines
  rw [splitInclNL_append a t' hnl]
  simp only [List.map_cons]
  have hchop : chopLineEnd (a ++ ['\n']) = a := by
    unfold chopLineEnd
    rw [if_pos (List.getLast?_concat a), List.dropLast_concat, if_neg hcr]
  rw [hchop]

/-- A good output line: nonempty, its own trim, not comment-starting. -/
def GoodSeg (l : List Char) : Prop :=
  l ≠ [] ∧ trimChars l = l ∧ ∀ c, l.head? = some c → isCommentStart c = false

theorem lines_good :
    ∀ (n : Nat) (t : List Char), t.length ≤ n →
      HeadOK t → List.Chain' PairOK t →
      (∀ c, t.getLast? = some c → isRustWS c = false) →
      ∀ l ∈ rustLines t, GoodSeg l := by
  intro n
  induction n with
  | zero =>
    intro t hlen _ _ _ l hl
    have : t = [] := List.length_eq_zero.mp (Nat.le_zero.mp hlen)
    subst this
    simp [rustLines, splitInclNL] at hl
  | succ n ih =>
    intro t hlen hHead hChain hLast l hl
    by_cases htnil : t = []
    · subst htnil; simp [rustLines, splitInclNL] at hl
    · by_cases hNL : '\n' ∈ t
      · -- split t at the first newline
        set p : Char → Bool := fun c => c != '\n' with hp
        have hdecomp := List.takeWhile_append_dropWhile p t
        set a := t.takeWhile p with ha
        have hanl : '\n' ∉ a := by
          intro hmem
          have := List.mem_takeWhile_imp hmem
          simp [hp] at this
        have hdropne : t.dropWhile p ≠ [] := by
          intro hdrop
          rw [hdrop, List.append_nil] at hdecomp
          exact hanl (hdecomp ▸ hNL)
        have hdrophead : ∃ t', t.dropWhile p = '\n' :: t' := by
          cases hd : t.dropWhile p with
          | nil => exact absurd hd hdropne
          | cons x xs =>
            have hx := head_dropWhile_false (p := p) t x (by rw [hd]; rfl)
            simp [hp] at hx
            subst hx
            exact ⟨xs, rfl⟩
        obtain ⟨t', ht'⟩ := hdrophead
        have hteq : t = a ++ '\n' :: t' := by rw [← hdecomp, ht']
        have hane : a ≠ [] := by
          intro hanil
          rw [hteq, hanil, List.nil_append] at hHead
          have := (hHead '\n' rfl).1
          exact absurd this (by decide)
        -- boundary information from the chain
        rw [hteq] at hChain
        rw [List.chain'_append] at hChain
        obtain ⟨hchaina, hchainrest, hbound⟩ := hChain
        have hlasta : ∀ c, a.getLast? = some c → isRustWS c = false := by
          intro c hc
          have := hbound c (Option.mem_def.mpr hc) '\n' (Option.mem_def.mpr rfl)
          exact this.2 rfl
        have hacr : a.getLast? ≠ some '\r' := by
          intro h
          have := hlasta '\r' h
          exact absurd this (by decide)
        rw [hteq, rustLines_append a t' hanl hacr] at hl
        rcases List.mem_cons.mp hl with rfl | hl'
        · -- the first line a
          refine ⟨hane, ?_, ?_⟩
          · refine trim_of_ends a (fun c hc => ?_) hlasta
            have : t.head? = some c := by
              rw [hteq, List.head?_append_of_ne_nil a hane, hc]
            exact (hHead c this).1
          · intro c hc
            have : t.head? = some c := by
              rw [hteq, List.head?_append_of_ne_nil a hane, hc]
            exact (hHead c this).2
        · -- a line of the tail t'
          cases ht'nil : t' with
          | nil => rw [ht'nil] at hl'; simp [rustLines, splitInclNL] at hl'
          | cons u us =>
            refine ih t' ?_ ?_ ?_ ?_ l hl'
            · have hlen2 : a.length + (t'.length + 1) ≤ n + 1 := by
                rw [hteq] at hlen
                simpa using hlen
              omega
            · intro c hc
              rw [List.chain'_cons'] at hchainrest
              exact (hchainrest.1 c (Option.mem_def.mpr hc)).1 rfl
            · exact List.Chain'.tail hchainrest
            · intro c hc
              refine hLast c ?_
              rw [hteq, List.getLast?_append_of_ne_nil a (by simp), ht'nil,
                List.getLast?_cons_cons, ← ht'nil, hc]
      · -- no newline: a single line
        rw [rustLines_single t htnil hNL] at hl
        rcases List.mem_cons.mp hl with rfl | hl'
        · refine ⟨htnil, trim_of_ends l (fun c hc => (hHead c hc).1) hLast,
            fun c hc => (hHead c hc).2⟩
        · simp at hl'

theorem chain'_trimEnd {R : Char → Char → Prop} (s : List Char) (h : List.Chain' R s) :
    List.Chain' R (trimEndChars s) := by
  obtain ⟨tail, htail⟩ : ∃ tail, trimEndChars s ++ tail = s := ⟨_, trimEnd_append_eq s⟩
  rw [← htail] at h
  have := List.Chain'.take h (trimEndChars s).length
  rwa [List.take_left] at this

theorem parseLines_good_eq :
    ∀ segs : List (List Char),
      (∀ l ∈ segs, GoodSeg l ∧ l.getLast? ≠ some '\\') →
      parseLines segs = (segs.map (fun l => l ++ ['\n'])).flatten := by
  intro segs
  induction segs with
  | nil => intro _; rfl
  | cons l ls ih =>
    intro h
    obtain ⟨⟨hne, htrim, hcom⟩, hnb⟩ := h l (by simp)
    have hstrip : stripSuffixBackslash l = none := by
      unfold stripSuffixBackslash
      rw [if_neg hnb]
    have hlc : lineContent l = (false, l) := by
      unfold lineContent
      rw [hstrip, htrim]
    rw [parseLines_cons, hlc]
    cases hl : l with
    | nil => exact absurd hl hne
    | cons c cs =>
      have hcomc : isCommentStart c = false := hcom c (by rw [hl]; rfl)
      simp only [hcomc, Bool.false_eq_true, if_false, List.map_cons, List.flatten_cons]
      rw [ih (fun x hx => h x (List.mem_cons_of_mem l hx))]

theorem flatten_term_eq :
    ∀ segs : List (List Char), segs ≠ [] →
      (segs.map (fun l => l ++ ['\n'])).flatten = joinNL segs ++ ['\n'] := by
  intro segs
  induction segs with
  | nil => intro h; exact absurd rfl h
  | cons l ls ih =>
    intro _
    cases ls with
    | nil => simp [joinNL]
    | cons x xs =>
      simp only [List.map_cons, List.flatten_cons] at ih ⊢
      rw [ih (by simp)]
      simp [joinNL]

theorem joinNL_getLast_ws :
    ∀ segs : List (List Char), (∀ l ∈ segs, GoodSeg l) →
      ∀ d, (joinNL segs).getLast? = some d → isRustWS d = false := by
  intro segs
  induction segs with
  | nil => intro _ d hd; simp [joinNL] at hd
  | cons l ls ih =>
    intro hgood d hd
    cases ls with
    | nil =>
      have := hgood l (by simp)
      exact trim_self_getLast l this.2.1 d hd
    | cons x xs =>
      have hxne : x ≠ [] := (hgood x (by simp)).1
      have hJne : joinNL (x :: xs) ≠ [] := by
        cases xs with
        | nil => exact hxne
        | cons y ys =>
          simp only [joinNL]
          intro hmm
          exact hxne (List.append_eq_nil.mp hmm).1
      have hj : joinNL (l :: x :: xs) = l ++ '\n' :: joinNL (x :: xs) := rfl
      rw [hj, List.getLast?_append_of_ne_nil l (by simp)] at hd
      rw [show ('\n' :: joinNL (x :: xs)) = ['\n'] ++ joinNL (x :: xs) from rfl,
        List.getLast?_append_of_ne_nil _ hJne] at hd
      exact ih (fun y hy => hgood y (List.mem_cons_of_mem l hy)) d hd

theorem parseStr_fixed (t : List Char)
    (hjoin : joinNL (rustLines t) = t)
    (hgood : ∀ l ∈ rustLines t, GoodSeg l)
    (hnb : ∀ l ∈ rustLines t, l.getLast? ≠ some '\\') :
    parseStr t = t := by
  unfold parseStr
  rw [parseLines_good_eq (rustLines t) (fun l hl => ⟨hgood l hl, hnb l hl⟩)]
  by_cases hsegnil : rustLines t = []
  · rw [hsegnil]
    rw [hsegnil] at hjoin
    have ht : t = [] := by simpa [joinNL] using hjoin.symm
    rw [ht]
    rfl
  · obtain ⟨s0, ss, hsegs⟩ := List.exists_cons_of_ne_nil hsegnil
    rw [hsegs]
    rw [flatten_term_eq (s0 :: ss) (by simp)]
    rw [trimEnd_append_ws _ '\n' (by decide)]
    rw [hsegs] at hjoin hgood
    cases hlast : (joinNL (s0 :: ss)).getLast? with
    | none =>
      have hnil : joinNL (s0 :: ss) = [] := List.getLast?_eq_none_iff.mp hlast
      rw [hnil] at hjoin ⊢
      rw [← hjoin]
      rfl
    | some d =>
      have hws := joinNL_getLast_ws (s0 :: ss) hgood d hlast
      rw [trimEnd_of_getLast _ d hlast hws, hjoin]

theorem parse_idem_aux (x : List Char)
    (H : ∀ l ∈ rustLines (parseStr x), l.getLast? ≠ some '\\') :
    parseStr (parseStr x) = parseStr x := by
  obtain ⟨hHead, hChain⟩ :=
    parseLines_invariant (rustLines x) (rustLines_no_NL x)
  have hps : parseStr x = trimEndChars (parseLines (rustLines x)) := rfl
  have hChainT : List.Chain' PairOK (parseStr x) := by
    rw [hps]; exact chain'_trimEnd _ hChain
  have hHeadT : HeadOK (parseStr x) := by
    rw [hps]; exact fun c hc => hHead c (head?_trimEnd _ c hc)
  have hLastT : ∀ c, (parseStr x).getLast? = some c → isRustWS c = false := by
    rw [hps]; exact fun c hc => trimEnd_getLast _ c hc
  have hgood := lines_good (parseStr x).length (parseStr x) le_rfl hHeadT hChainT hLastT
  have hlastnl : (parseStr x).getLast? ≠ some '\n' := fun h =>
    absurd (hLastT '\n' h) (by decide)
  have hnocrlf : List.Chain' (fun a b => b = '\n' → a ≠ '\r') (parseStr x) :=
    List.Chain'.imp
      (fun a b hab hb ha => absurd (hab.2 hb) (by rw [ha]; decide)) hChainT
  have hjoin := joinNL_rustLines (parseStr x) hlastnl hnocrlf
  exact parseStr_fixed (parseStr x) hjoin hgood H

/-- C7 counterexample: normalization is not idempotent.  For the input
consisting of `a`, a backslash and a space, the space prevents the
backslash from being seen as a continuation marker and `trim` leaves the
line `a` + backslash; re-parsing that output now strips the backslash as a
continuation marker, so parse(parse(x)) = "a" differs from
parse(x) = "a" + backslash. -/
theorem c7_idempotence_cex :
    parseStr "a\\ ".data = "a\\".data ∧ parseStr "a\\".data = "a".data ∧
      parseStr (parseStr "a\\ ".data) ≠ parseStr "a\\ ".data := by
  refine ⟨by decide, by decide, by decide⟩

/-- C7 (amended): `Sql` normalization drops every line whose first
character after trimming is `#`, `;`, `/` or `-` (both plain lines and
backslash-continuation lines), joins a line ending in a trailing backslash
with the next line without an inserted newline, and is idempotent on every
input x such that no line of parse(x) ends in a backslash (a trailing
backslash can survive in the output — e.g. behind trailing whitespace —
and is re-interpreted as a continuation marker on the second pass, so
unrestricted idempotence fails). -/
theorem c7_parse_normalization :
    (∀ (line : List Char) (rest : List (List Char)) (c : Char) (cs : List Char),
      stripSuffixBackslash line = none → trimChars line = c :: cs →
      isCommentStart c = true → parseLines (line :: rest) = parseLines rest) ∧
    (∀ (line l : List Char) (rest : List (List Char)) (c : Char) (cs : List Char),
      stripSuffixBackslash line = some l → trimStartChars l = c :: cs →
      isCommentStart c = true → parseLines (line :: rest) = parseLines rest) ∧
    (∀ (line l : List Char) (rest : List (List Char)) (c : Char) (cs : List Char),
      stripSuffixBackslash line = some l → trimStartChars l = c :: cs →
      isCommentStart c = false →
      parseLines (line :: rest) = (c :: cs) ++ parseLines rest) ∧
    (∀ x : List Char,
      (∀ l ∈ rustLines (parseStr x), l.getLast? ≠ some '\\') →
      parseStr (parseStr x) = parseStr x) := by
  refine ⟨?_, ?_, ?_, parse_idem_aux⟩
  · intro line rest c cs h1 h2 h3
    have hlc : lineContent line = (false, c :: cs) := by
      unfold lineContent
      rw [h1]
      simp [h2]
    rw [parseLines_cons, hlc]
    simp [h3]
  · intro line l rest c cs h1 h2 h3
    have hlc : lineContent line = (true, c :: cs) := by
      unfold lineContent
      rw [h1]
      simp [h2]
    rw [parseLines_cons, hlc]
    simp [h3]
  · intro line l rest c cs h1 h2 h3
    have hlc : lineContent line = (true, c :: cs) := by
      unfold lineContent
      rw [h1]
      simp [h2]
    rw [parseLines_cons, hlc]
    simp [h3]

/-- C7 witness: the spec scenario — a comment line is dropped entirely and
the already-normalized result is a fixed point of parsing; by the amended
theorem applied at a concrete input. -/
theorem c7_parse_normalization_witness :
    parseStr (parseStr "  -- note\nCREATE X".data) = parseStr "  -- note\nCREATE X".data :=
  c7_parse_normalization.2.2.2 "  -- note\nCREATE X".data (by decide)
